import Mathlib

/-!
Shallow embedding of the layer-extraction engine from `pkg/image/extract.go`
of the cli-manager repository: the `Extract` operation, its validation of the
target list, the newest-first layer walk with the processed-name set, and the
path normalization (`path/filepath.Clean`, POSIX rules) applied to tar entry
names before they are compared with targets.
-/

namespace CliManager

/-- The path separator character used by the engine. -/
def sep : Char := '/'

/-- The current-directory path character. -/
def dotChar : Char := '.'

/-- Split a character list on the separator, mirroring the element
decomposition performed by `filepath.Clean`. -/
def splitSep : List Char → List (List Char)
  | [] => [[]]
  | c :: t =>
    if c = sep then [] :: splitSep t
    else
      match splitSep t with
      | [] => [[c]]
      | h :: r => (c :: h) :: r

/-- Join path elements with single separators, mirroring the output buffer
of `filepath.Clean`. -/
def joinChars : List (List Char) → List Char
  | [] => []
  | [p] => p
  | p :: q :: ps => p ++ sep :: joinChars (q :: ps)

/-- One step of the element-stack evaluation of `filepath.Clean`; `stack`
holds the already-cleaned elements, most recent first. Empty and `.`
elements are dropped; `..` pops a real element when one is available,
is dropped at the root, and is kept when nothing can be popped in a
relative path. -/
def cleanStep (rooted : Bool) (stack : List (List Char)) (p : List Char) : List (List Char) :=
  if p = [] ∨ p = [dotChar] then stack
  else if p = [dotChar, dotChar] then
    match stack with
    | q :: rest => if q = [dotChar, dotChar] then p :: q :: rest else rest
    | [] => if rooted then [] else [p]
  else p :: stack

/-- Reassemble the cleaned elements into a path, mirroring the final
output step of `filepath.Clean`: rooted paths get the leading separator
back, and an empty relative result becomes the current-directory path. -/
def assemble (rooted : Bool) (parts : List (List Char)) : List Char :=
  let joined := joinChars parts
  if rooted then sep :: joined
  else if joined = [] then [dotChar] else joined

/-- Model of Go `path/filepath.Clean` (POSIX separators), the normalization
the engine applies to every tar entry name. -/
def cleanChars (l : List Char) : List Char :=
  let rooted : Bool := l.head? == some sep
  assemble rooted (((splitSep l).foldl (cleanStep rooted) []).reverse)

/-- `filepath.Clean` lifted to `String`. -/
def clean (s : String) : String := String.mk (cleanChars s.data)

/-- Go `strings.TrimPrefix(target, "/")`: drop a single leading separator
when present. -/
def trimLeadingSlash (s : String) : String :=
  match s.data with
  | c :: rest => if c = sep then String.mk rest else s
  | [] => s

/-- Tar entry type flag; the engine only distinguishes directories from
everything else. -/
inductive TypeFlag where
  | typeDir
  | typeReg
  | typeOther
deriving DecidableEq

/-- One tar entry: a path name, a type flag and the content bytes. The tar
format yields exactly the header's size in content bytes. -/
structure TarEntry where
  name : String
  typeflag : TypeFlag
  content : List Nat
deriving DecidableEq

/-- The header's size field: the length of the entry's content. -/
def TarEntry.size (e : TarEntry) : Nat := e.content.length

/-- One step of a layer's tar stream: either an entry, or a decode failure
returned by `tarReader.Next()` at that point of the stream. -/
inductive TarItem where
  | entry (e : TarEntry)
  | readErr (msg : String)

/-- A layer handle: `Uncompressed()` either yields the layer's tar stream
or fails with an I/O error message. -/
structure Layer where
  uncompressed : Except String (List TarItem)

/-- The image handle: `Layers()` either yields the layer list (oldest
first, as the registry library orders them) or fails; `exportResult` is the
outcome of the external `crane.Export` pass-through. -/
structure Image where
  layers : Except String (List Layer)
  exportResult : Except String Unit

/-- The destination writer's failure behaviour: for a given entry name,
whether writing the tar header, or copying the content, fails, and with
which I/O error message. -/
structure Sink where
  headerFail : String → Option String
  copyFail : String → Option String

/-- Mirror of `ExtractOptions`: the whole-filesystem tarball switch, the
target list, and the destination sink. -/
structure ExtractOptions where
  tarball : Bool
  targets : List String
  destination : Sink

/-- The errors `Extract` returns, one constructor per `fmt.Errorf` site. -/
inductive ExtractErr where
  | noTarget
  | duplicateTarget (t : String)
  | retrievingLayers (msg : String)
  | readingLayerContents (msg : String)
  | readingTar (msg : String)
  | writeHeaderErr (name : String) (msg : String)
  | copyErr (name : String) (msg : String)
  | exportErr (msg : String)
deriving DecidableEq

/-- What a successful `Extract` produced: the whole-image export, or the
sequence of entries written to the destination archive. -/
inductive ExtractResult where
  | exported
  | archive (entries : List TarEntry)
deriving DecidableEq

deriving instance DecidableEq for Except

/-- The duplicate scan over `opts.Targets`: the first target whose exact
string already occurred earlier in the list, if any. -/
def findDup (seen : List String) : List String → Option String
  | [] => none
  | t :: ts => if t ∈ seen then some t else findDup (t :: seen) ts

/-- Whether a cleaned entry name equals some target with a single leading
separator stripped, as in the engine's inner target loop. -/
def matchesTarget (targets : List String) (name : String) : Bool :=
  targets.any (fun t => name == trimLeadingSlash t)

/-- The per-entry decision chain of the engine's inner loop: skip
directories, skip empty contents, clean the name, skip empty names, skip
already-processed names, and otherwise report the cleaned name when it
matches a target. -/
def entryAction (targets : List String) (pr : List String) (e : TarEntry) : Option String :=
  if e.typeflag = TypeFlag.typeDir then none
  else if e.size = 0 then none
  else
    let name := clean e.name
    if name.length = 0 then none
    else if name ∈ pr then none
    else if matchesTarget targets name then some name
    else none

/-- Process one layer's tar stream: `pr` is the processed-name set, `out`
the entries written to the destination so far. -/
def processItems (targets : List String) (sink : Sink) :
    List TarItem → List String → List TarEntry → Except ExtractErr (List String × List TarEntry)
  | [], pr, out => .ok (pr, out)
  | .readErr m :: _, _, _ => .error (.readingTar m)
  | .entry e :: rest, pr, out =>
    match entryAction targets pr e with
    | none => processItems targets sink rest pr out
    | some name =>
      match sink.headerFail name with
      | some m => .error (.writeHeaderErr name m)
      | none =>
        match sink.copyFail name with
        | some m => .error (.copyErr name m)
        | none => processItems targets sink rest (name :: pr) (out ++ [⟨name, e.typeflag, e.content⟩])

/-- Process a list of layers in the given order (the engine passes the
image's layers reversed, most recent first). -/
def processLayers (targets : List String) (sink : Sink) :
    List Layer → List String → List TarEntry → Except ExtractErr (List String × List TarEntry)
  | [], pr, out => .ok (pr, out)
  | l :: ls, pr, out =>
    match l.uncompressed with
    | .error m => .error (.readingLayerContents m)
    | .ok items =>
      match processItems targets sink items pr out with
      | .error err => .error err
      | .ok (pr2, out2) => processLayers targets sink ls pr2 out2

/-- The `Extract` operation of `pkg/image/extract.go`: whole-image export
when the tarball writer is set, otherwise target validation followed by the
newest-first walk over the layers. -/
def Extract (img : Image) (opts : ExtractOptions) : Except ExtractErr ExtractResult :=
  if opts.tarball then
    match img.exportResult with
    | .ok _ => .ok .exported
    | .error m => .error (.exportErr m)
  else if opts.targets.isEmpty then .error .noTarget
  else
    match findDup [] opts.targets with
    | some t => .error (.duplicateTarget t)
    | none =>
      match img.layers with
      | .error m => .error (.retrievingLayers m)
      | .ok layers =>
        match processLayers opts.targets opts.destination layers.reverse [] [] with
        | .error err => .error err
        | .ok (_, out) => .ok (.archive out)

/-- A layer whose stream decodes without failures. -/
def goodLayer (es : List TarEntry) : Layer := ⟨.ok (es.map TarItem.entry)⟩

/-- An image whose layer listing and layer streams never fail. -/
def mkImage (lss : List (List TarEntry)) : Image := ⟨.ok (lss.map goodLayer), .ok ()⟩

/-- A destination sink whose writes never fail. -/
def okSink : Sink := ⟨fun _ => none, fun _ => none⟩

/-- The first entry of a layer that defines path `p`: a non-directory entry
of non-zero size whose cleaned name is `p`. -/
def firstDef (es : List TarEntry) (p : String) : Option TarEntry :=
  match es with
  | [] => none
  | e :: rest =>
    if e.typeflag ≠ TypeFlag.typeDir ∧ e.size ≠ 0 ∧ clean e.name = p then some e
    else firstDef rest p

/-- The defining entry for `p` in a stack of layers scanned in the given
order (pass the layers newest first for the engine's notion of the
most-recent defining layer). -/
def stackDef (lss : List (List TarEntry)) (p : String) : Option TarEntry :=
  match lss with
  | [] => none
  | es :: rest =>
    match firstDef es p with
    | some e => some e
    | none => stackDef rest p

/-- Whether a character list contains two adjacent separators. -/
def hasDoubleSep : List Char → Bool
  | c1 :: c2 :: rest => (c1 == sep && c2 == sep) || hasDoubleSep (c2 :: rest)
  | _ => false

/-- Whether a character list starts with a current-directory marker
followed by a separator. -/
def startsDotSlash : List Char → Bool
  | c1 :: c2 :: _ => c1 == dotChar && c2 == sep
  | _ => false

/-- A path element as kept by the `filepath.Clean` evaluation: non-empty,
separator-free, and not the sole current-directory marker. -/
def goodPart (p : List Char) : Prop := p ≠ [] ∧ sep ∉ p ∧ p ≠ [dotChar]

/-- A path string in one of the non-canonical shapes that `filepath.Clean`
never produces: a leading current-directory marker, a doubled separator,
or a trailing separator on anything longer than the bare root. -/
def badTargetForm (s : String) : Prop :=
  startsDotSlash s.data = true ∨ hasDoubleSep s.data = true ∨
    (s.data.getLast? = some sep ∧ s ≠ String.mk [sep])


/-! ### Canonicality of the `filepath.Clean` model -/

theorem splitSep_sep_not_mem : ∀ (l : List Char), ∀ p ∈ splitSep l, sep ∉ p := by
  intro l
  induction l with
  | nil =>
    intro p hp
    simp only [splitSep, List.mem_singleton] at hp
    simp [hp]
  | cons c t ih =>
    intro p hp
    simp only [splitSep] at hp
    split at hp
    · rcases List.mem_cons.mp hp with rfl | h
      · simp
      · exact ih p h
    · rename_i hc
      split at hp
      · rename_i hs
        simp only [List.mem_singleton] at hp
        subst hp
        intro hin
        exact hc (List.mem_singleton.mp hin).symm
      · rename_i h r hs
        rcases List.mem_cons.mp hp with rfl | hmem
        · intro hin
          rcases List.mem_cons.mp hin with h1 | h1
          · exact hc h1.symm
          · exact ih h (by rw [hs]; exact List.mem_cons_self h r) h1
        · exact ih p (by rw [hs]; exact List.mem_cons_of_mem h hmem)

theorem cleanStep_good {rooted : Bool} {stack : List (List Char)} {p : List Char}
    (hp : sep ∉ p) (hstack : ∀ q ∈ stack, goodPart q) :
    ∀ q ∈ cleanStep rooted stack p, goodPart q := by
  intro q hq
  unfold cleanStep at hq
  split at hq
  · exact hstack q hq
  · rename_i hne
    split at hq
    · rename_i hdd
      split at hq
      · rename_i q' rest
        split at hq
        · rcases List.mem_cons.mp hq with rfl | h
          · subst hdd
            exact ⟨by simp, by decide, by decide⟩
          · exact hstack q h
        · exact hstack q (List.mem_cons_of_mem q' hq)
      · split at hq
        · exact absurd hq (List.not_mem_nil q)
        · have := List.mem_singleton.mp hq
          subst this
          subst hdd
          exact ⟨by simp, by decide, by decide⟩
    · rename_i hdd
      rcases List.mem_cons.mp hq with rfl | h
      · rcases not_or.mp hne with ⟨h1, h2⟩
        exact ⟨h1, hp, h2⟩
      · exact hstack q h

theorem foldl_cleanStep_good {rooted : Bool} :
    ∀ (parts : List (List Char)) (stack : List (List Char)),
      (∀ p ∈ parts, sep ∉ p) → (∀ q ∈ stack, goodPart q) →
      ∀ q ∈ List.foldl (cleanStep rooted) stack parts, goodPart q := by
  intro parts
  induction parts with
  | nil => intro stack _ hstack q hq; exact hstack q hq
  | cons p ps ih =>
    intro stack hparts hstack q hq
    simp only [List.foldl_cons] at hq
    exact ih (cleanStep rooted stack p)
      (fun x hx => hparts x (List.mem_cons_of_mem p hx))
      (cleanStep_good (hparts p (List.mem_cons_self p ps)) hstack) q hq

theorem hds_cons_of_ne {c : Char} (hc : c ≠ sep) (l : List Char) :
    hasDoubleSep (c :: l) = hasDoubleSep l := by
  cases l with
  | nil => rfl
  | cons x xs =>
    show ((c == sep && x == sep) || hasDoubleSep (x :: xs)) = hasDoubleSep (x :: xs)
    rw [beq_eq_false_iff_ne.mpr hc, Bool.false_and, Bool.false_or]

theorem hds_of_no_sep : ∀ {p : List Char}, sep ∉ p → hasDoubleSep p = false := by
  intro p
  induction p with
  | nil => intro _; rfl
  | cons c t ih =>
    intro h
    have hcne : c ≠ sep := fun hcc => h (List.mem_cons.mpr (Or.inl hcc.symm))
    rw [hds_cons_of_ne hcne t]
    exact ih (fun hx => h (List.mem_cons_of_mem c hx))

theorem hds_append : ∀ (p : List Char), sep ∉ p → ∀ (l : List Char),
    hasDoubleSep l = false → hasDoubleSep (p ++ l) = false := by
  intro p
  induction p with
  | nil => intro _ l hl; simpa using hl
  | cons c t ih =>
    intro hp l hl
    have hcne : c ≠ sep := fun hcc => hp (List.mem_cons.mpr (Or.inl hcc.symm))
    rw [List.cons_append, hds_cons_of_ne hcne (t ++ l)]
    exact ih (fun hx => hp (List.mem_cons_of_mem c hx)) l hl

theorem joinChars_ne_nil : ∀ (parts : List (List Char)), parts ≠ [] →
    (∀ p ∈ parts, p ≠ []) → joinChars parts ≠ [] := by
  intro parts hne hgood
  match parts with
  | [p] => simpa [joinChars] using hgood p (List.mem_singleton.mpr rfl)
  | p :: q :: ps =>
    simp only [joinChars]
    intro hcontra
    rcases List.append_eq_nil.mp hcontra with ⟨-, h2⟩
    exact List.cons_ne_nil _ _ h2

theorem joinChars_head_ne_sep : ∀ (parts : List (List Char)),
    (∀ p ∈ parts, goodPart p) → ∀ (c : Char) (t : List Char),
    joinChars parts = c :: t → c ≠ sep := by
  intro parts hgood c t hj
  match parts with
  | [] => simp [joinChars] at hj
  | [p] =>
    have hp := hgood p (List.mem_singleton.mpr rfl)
    simp only [joinChars] at hj
    intro hcc
    exact hp.2.1 (by rw [hj]; exact List.mem_cons.mpr (Or.inl hcc.symm))
  | p :: q :: ps =>
    have hp := hgood p (List.mem_cons_self p (q :: ps))
    obtain ⟨a, t', rfl⟩ := List.exists_cons_of_ne_nil hp.1
    simp only [joinChars, List.cons_append] at hj
    rcases List.cons_eq_cons.mp hj with ⟨rfl, -⟩
    intro hcc
    exact hp.2.1 (List.mem_cons.mpr (Or.inl hcc.symm))

theorem joinChars_getLast_ne_sep : ∀ (parts : List (List Char)),
    (∀ p ∈ parts, goodPart p) → ∀ (c : Char),
    (joinChars parts).getLast? = some c → c ≠ sep := by
  intro parts
  induction parts with
  | nil => intro _ c hlast; simp [joinChars] at hlast
  | cons p ps ih =>
    intro hgood c hlast
    cases ps with
    | nil =>
      simp only [joinChars] at hlast
      have hp := hgood p (List.mem_singleton.mpr rfl)
      obtain ⟨hne, rfl⟩ := List.mem_getLast?_eq_getLast (Option.mem_def.mpr hlast)
      exact fun hcc => hp.2.1 (hcc ▸ List.getLast_mem hne)
    | cons q ps' =>
      simp only [joinChars] at hlast
      rw [List.getLast?_append_cons] at hlast
      have hJne : joinChars (q :: ps') ≠ [] :=
        joinChars_ne_nil (q :: ps') (List.cons_ne_nil q ps')
          (fun x hx => (hgood x (List.mem_cons_of_mem p hx)).1)
      obtain ⟨d, J, hJ⟩ := List.exists_cons_of_ne_nil hJne
      rw [hJ, List.getLast?_cons_cons] at hlast
      rw [← hJ] at hlast
      exact ih (fun x hx => hgood x (List.mem_cons_of_mem p hx)) c hlast

theorem joinChars_hds : ∀ (parts : List (List Char)),
    (∀ p ∈ parts, goodPart p) → hasDoubleSep (joinChars parts) = false := by
  intro parts
  induction parts with
  | nil => intro _; rfl
  | cons p ps ih =>
    intro hgood
    cases ps with
    | nil => exact hds_of_no_sep (hgood p (List.mem_singleton.mpr rfl)).2.1
    | cons q ps' =>
      simp only [joinChars]
      apply hds_append p (hgood p (List.mem_cons_self p (q :: ps'))).2.1
      have htail : ∀ x ∈ q :: ps', goodPart x :=
        fun x hx => hgood x (List.mem_cons_of_mem p hx)
      have hJ := ih htail
      rcases hJhead : joinChars (q :: ps') with _ | ⟨c, t⟩
      · rfl
      · have hcne : c ≠ sep := joinChars_head_ne_sep (q :: ps') htail c t hJhead
        show ((sep == sep && c == sep) || hasDoubleSep (c :: t)) = false
        rw [beq_eq_false_iff_ne.mpr hcne, Bool.and_false, Bool.false_or, ← hJhead]
        exact hJ

theorem joinChars_not_dotslash : ∀ (parts : List (List Char)),
    (∀ p ∈ parts, goodPart p) → startsDotSlash (joinChars parts) = false := by
  intro parts hgood
  match parts with
  | [] => rfl
  | [p] =>
    have hp := hgood p (List.mem_singleton.mpr rfl)
    match p, hp with
    | [a], _ => rfl
    | a :: b :: t, hp =>
      have hb : b ≠ sep := fun hbb =>
        hp.2.1 (List.mem_cons_of_mem a (List.mem_cons.mpr (Or.inl hbb.symm)))
      show (a == dotChar && b == sep) = false
      rw [beq_eq_false_iff_ne.mpr hb, Bool.and_false]
  | p :: q :: ps =>
    have hp := hgood p (List.mem_cons_self p (q :: ps))
    obtain ⟨a, t', rfl⟩ := List.exists_cons_of_ne_nil hp.1
    cases t' with
    | nil =>
      have ha : a ≠ dotChar := fun haa => hp.2.2 (by rw [haa])
      show (a == dotChar && sep == sep) = false
      rw [beq_eq_false_iff_ne.mpr ha, Bool.false_and]
    | cons b t'' =>
      have hb : b ≠ sep := fun hbb =>
        hp.2.1 (List.mem_cons_of_mem a (List.mem_cons.mpr (Or.inl hbb.symm)))
      show (a == dotChar && b == sep) = false
      rw [beq_eq_false_iff_ne.mpr hb, Bool.and_false]

theorem assemble_ne_nil (rooted : Bool) (parts : List (List Char)) :
    assemble rooted parts ≠ [] := by
  simp only [assemble]
  split
  · exact List.cons_ne_nil _ _
  · split
    · exact List.cons_ne_nil _ _
    · assumption

theorem assemble_hds (rooted : Bool) (parts : List (List Char))
    (hgood : ∀ p ∈ parts, goodPart p) :
    hasDoubleSep (assemble rooted parts) = false := by
  simp only [assemble]
  split
  · rcases hJ : joinChars parts with _ | ⟨c, t⟩
    · rfl
    · have hcne : c ≠ sep := joinChars_head_ne_sep parts hgood c t hJ
      show ((sep == sep && c == sep) || hasDoubleSep (c :: t)) = false
      rw [beq_eq_false_iff_ne.mpr hcne, Bool.and_false, Bool.false_or, ← hJ]
      exact joinChars_hds parts hgood
  · split
    · rfl
    · exact joinChars_hds parts hgood

theorem assemble_not_dotslash (rooted : Bool) (parts : List (List Char))
    (hgood : ∀ p ∈ parts, goodPart p) :
    startsDotSlash (assemble rooted parts) = false := by
  simp only [assemble]
  split
  · rcases hJ : joinChars parts with _ | ⟨c, t⟩
    · rfl
    · show (sep == dotChar && c == sep) = false
      rw [show (sep == dotChar) = false by decide, Bool.false_and]
  · split
    · rfl
    · exact joinChars_not_dotslash parts hgood

theorem assemble_getLast (rooted : Bool) (parts : List (List Char))
    (hgood : ∀ p ∈ parts, goodPart p) :
    (assemble rooted parts).getLast? = some sep → assemble rooted parts = [sep] := by
  simp only [assemble]
  split
  · rcases hJ : joinChars parts with _ | ⟨c, t⟩
    · intro _; rfl
    · intro hlast
      rw [List.getLast?_cons_cons] at hlast
      have hparts : parts ≠ [] := by
        intro hp
        rw [hp] at hJ
        exact List.cons_ne_nil c t (by simpa [joinChars] using hJ.symm)
      exact absurd rfl
        (joinChars_getLast_ne_sep parts hgood sep (by rw [hJ]; exact hlast))
  · split
    · intro h
      exact absurd h (by decide)
    · rename_i hJne
      intro hlast
      have hparts : parts ≠ [] := by
        intro hp
        exact hJne (by rw [hp]; rfl)
      exact absurd rfl (joinChars_getLast_ne_sep parts hgood sep hlast)

theorem cleanChars_stack_good (l : List Char) (rooted : Bool) :
    ∀ q ∈ ((splitSep l).foldl (cleanStep rooted) []).reverse, goodPart q := by
  intro q hq
  exact foldl_cleanStep_good (splitSep l) [] (splitSep_sep_not_mem l)
    (by simp) q (List.mem_reverse.mp hq)

theorem cleanChars_ne_nil (l : List Char) : cleanChars l ≠ [] := by
  simp only [cleanChars]
  exact assemble_ne_nil _ _

theorem cleanChars_hds (l : List Char) : hasDoubleSep (cleanChars l) = false := by
  simp only [cleanChars]
  exact assemble_hds _ _ (cleanChars_stack_good l _)

theorem cleanChars_not_dotslash (l : List Char) :
    startsDotSlash (cleanChars l) = false := by
  simp only [cleanChars]
  exact assemble_not_dotslash _ _ (cleanChars_stack_good l _)

theorem cleanChars_getLast (l : List Char) :
    (cleanChars l).getLast? = some sep → cleanChars l = [sep] := by
  simp only [cleanChars]
  exact assemble_getLast _ _ (cleanChars_stack_good l _)

theorem clean_not_bad (s : String) : ¬ badTargetForm (clean s) := by
  intro hbad
  rcases hbad with h | h | ⟨h1, h2⟩
  · rw [show (clean s).data = cleanChars s.data from rfl, cleanChars_not_dotslash] at h
    exact Bool.false_ne_true h
  · rw [show (clean s).data = cleanChars s.data from rfl, cleanChars_hds] at h
    exact Bool.false_ne_true h
  · apply h2
    rw [show (clean s).data = cleanChars s.data from rfl] at h1
    rw [clean]
    rw [cleanChars_getLast s.data h1]

theorem clean_length_ne_zero (s : String) : (clean s).length ≠ 0 := by
  intro h
  exact cleanChars_ne_nil s.data (List.length_eq_zero.mp h)

/-! ### Behaviour of the per-entry decision chain -/

theorem entryAction_some {targets pr : List String} {e : TarEntry} {name : String}
    (h : entryAction targets pr e = some name) :
    name = clean e.name ∧ e.typeflag ≠ TypeFlag.typeDir ∧ e.content ≠ [] ∧
      name ∉ pr ∧ matchesTarget targets name = true := by
  simp only [entryAction] at h
  split at h
  · exact absurd h (by simp)
  · rename_i hdir
    split at h
    · exact absurd h (by simp)
    · rename_i hsz
      split at h
      · exact absurd h (by simp)
      · split at h
        · exact absurd h (by simp)
        · rename_i hmem
          split at h
          · rename_i hmt
            rcases Option.some.inj h with rfl
            refine ⟨rfl, hdir, ?_, hmem, hmt⟩
            intro hc
            exact hsz (by simp [TarEntry.size, hc])
          · exact absurd h (by simp)

theorem entryAction_eq_some {targets pr : List String} {e : TarEntry} {p : String}
    (hdir : e.typeflag ≠ TypeFlag.typeDir) (hsz : e.size ≠ 0) (hcl : clean e.name = p)
    (hpr : p ∉ pr) (hm : matchesTarget targets p = true) :
    entryAction targets pr e = some p := by
  subst hcl
  unfold entryAction
  rw [if_neg hdir, if_neg hsz, if_neg (clean_length_ne_zero e.name), if_neg hpr, if_pos hm]

/-! ### The processed-set / output invariant of the layer walk -/

theorem processItems_spec {targets : List String} {sink : Sink} :
    ∀ (items : List TarItem) (pr : List String) (out : List TarEntry)
      (pr2 : List String) (out2 : List TarEntry),
      processItems targets sink items pr out = .ok (pr2, out2) →
      ∃ delta : List TarEntry,
        out2 = out ++ delta ∧
        (∀ x ∈ pr, x ∈ pr2) ∧
        (∀ x ∈ pr2, x ∈ pr ∨ x ∈ delta.map TarEntry.name) ∧
        (delta.map TarEntry.name).Nodup ∧
        (∀ e ∈ delta, e.name ∉ pr ∧ e.name ∈ pr2 ∧ matchesTarget targets e.name = true ∧
          ∃ s, TarItem.entry s ∈ items ∧ e.name = clean s.name ∧
            e.typeflag = s.typeflag ∧ e.content = s.content ∧
            s.typeflag ≠ TypeFlag.typeDir ∧ s.content ≠ []) := by
  intro items
  induction items with
  | nil =>
    intro pr out pr2 out2 h
    simp only [processItems, Except.ok.injEq, Prod.mk.injEq] at h
    obtain ⟨rfl, rfl⟩ := h
    refine ⟨[], by simp, fun x hx => hx, fun x hx => Or.inl hx, List.nodup_nil, ?_⟩
    intro e he
    exact absurd he (List.not_mem_nil e)
  | cons it rest ih =>
    intro pr out pr2 out2 h
    cases it with
    | readErr m => simp [processItems] at h
    | entry e =>
      simp only [processItems] at h
      cases hact : entryAction targets pr e with
      | none =>
        simp only [hact] at h
        obtain ⟨delta, hd1, hd2, hd3, hd4, hd5⟩ := ih pr out pr2 out2 h
        refine ⟨delta, hd1, hd2, hd3, hd4, ?_⟩
        intro e' he'
        obtain ⟨ha, hb, hc, s, hs, h5⟩ := hd5 e' he'
        exact ⟨ha, hb, hc, s, List.mem_cons_of_mem _ hs, h5⟩
      | some name =>
        simp only [hact] at h
        cases hhf : sink.headerFail name with
        | some m => simp [hhf] at h
        | none =>
          simp only [hhf] at h
          cases hcf : sink.copyFail name with
          | some m => simp [hcf] at h
          | none =>
            simp only [hcf] at h
            obtain ⟨hname, hdir, hcne, hnpr, hmt⟩ := entryAction_some hact
            obtain ⟨delta, hd1, hd2, hd3, hd4, hd5⟩ :=
              ih (name :: pr) (out ++ [⟨name, e.typeflag, e.content⟩]) pr2 out2 h
            refine ⟨⟨name, e.typeflag, e.content⟩ :: delta, ?_, ?_, ?_, ?_, ?_⟩
            · rw [hd1, List.append_assoc, List.singleton_append]
            · exact fun x hx => hd2 x (List.mem_cons_of_mem name hx)
            · intro x hx
              rcases hd3 x hx with hx2 | hx2
              · rcases List.mem_cons.mp hx2 with rfl | hx3
                · right
                  simp only [List.map_cons]
                  exact List.mem_cons_self _ _
                · exact Or.inl hx3
              · right
                simp only [List.map_cons]
                exact List.mem_cons_of_mem _ hx2
            · simp only [List.map_cons]
              refine List.nodup_cons.mpr ⟨?_, hd4⟩
              intro hmem
              obtain ⟨e', he', hne⟩ := List.mem_map.mp hmem
              exact (hd5 e' he').1 (hne ▸ List.mem_cons_self name pr)
            · intro e' he'
              rcases List.mem_cons.mp he' with rfl | he2
              · refine ⟨hnpr, hd2 name (List.mem_cons_self name pr), hmt,
                  e, List.mem_cons_self _ _, hname, rfl, rfl, hdir, hcne⟩
              · obtain ⟨ha, hb, hc, s, hs, h5⟩ := hd5 e' he2
                exact ⟨fun hx => ha (List.mem_cons_of_mem name hx), hb, hc,
                  s, List.mem_cons_of_mem _ hs, h5⟩

theorem processLayers_spec {targets : List String} {sink : Sink} :
    ∀ (ls : List Layer) (pr : List String) (out : List TarEntry)
      (pr2 : List String) (out2 : List TarEntry),
      processLayers targets sink ls pr out = .ok (pr2, out2) →
      ∃ delta : List TarEntry,
        out2 = out ++ delta ∧
        (∀ x ∈ pr, x ∈ pr2) ∧
        (∀ x ∈ pr2, x ∈ pr ∨ x ∈ delta.map TarEntry.name) ∧
        (delta.map TarEntry.name).Nodup ∧
        (∀ e ∈ delta, e.name ∉ pr ∧ e.name ∈ pr2 ∧ matchesTarget targets e.name = true ∧
          ∃ l ∈ ls, ∃ items, l.uncompressed = .ok items ∧
            ∃ s, TarItem.entry s ∈ items ∧ e.name = clean s.name ∧
              e.typeflag = s.typeflag ∧ e.content = s.content ∧
              s.typeflag ≠ TypeFlag.typeDir ∧ s.content ≠ []) := by
  intro ls
  induction ls with
  | nil =>
    intro pr out pr2 out2 h
    simp only [processLayers, Except.ok.injEq, Prod.mk.injEq] at h
    obtain ⟨rfl, rfl⟩ := h
    refine ⟨[], by simp, fun x hx => hx, fun x hx => Or.inl hx, List.nodup_nil, ?_⟩
    intro e he
    exact absurd he (List.not_mem_nil e)
  | cons l ls ih =>
    intro pr out pr2 out2 h
    simp only [processLayers] at h
    cases hu : l.uncompressed with
    | error m => simp [hu] at h
    | ok items =>
      simp only [hu] at h
      cases hpi : processItems targets sink items pr out with
      | error err => simp [hpi] at h
      | ok st =>
        obtain ⟨pr1, out1⟩ := st
        simp only [hpi] at h
        obtain ⟨d1, h11, h12, h13, h14, h15⟩ := processItems_spec items pr out pr1 out1 hpi
        obtain ⟨d2, h21, h22, h23, h24, h25⟩ := ih pr1 out1 pr2 out2 h
        refine ⟨d1 ++ d2, ?_, ?_, ?_, ?_, ?_⟩
        · rw [h21, h11, List.append_assoc]
        · exact fun x hx => h22 x (h12 x hx)
        · intro x hx
          rcases h23 x hx with hx2 | hx2
          · rcases h13 x hx2 with hx3 | hx3
            · exact Or.inl hx3
            · right
              rw [List.map_append]
              exact List.mem_append_left _ hx3
          · right
            rw [List.map_append]
            exact List.mem_append_right _ hx2
        · rw [List.map_append]
          refine List.Nodup.append h14 h24 ?_
          intro x hx1 hx2
          obtain ⟨e1, he1, hn1⟩ := List.mem_map.mp hx1
          obtain ⟨e2, he2, hn2⟩ := List.mem_map.mp hx2
          exact (h25 e2 he2).1 (hn2 ▸ (hn1 ▸ (h15 e1 he1).2.1))
        · intro e' he'
          rcases List.mem_append.mp he' with he2 | he2
          · obtain ⟨ha, hb, hc, s, hs, h5⟩ := h15 e' he2
            exact ⟨ha, h22 e'.name hb, hc,
              l, List.mem_cons_self l ls, items, hu, s, hs, h5⟩
          · obtain ⟨ha, hb, hc, l', hl', hrest⟩ := h25 e' he2
            exact ⟨fun hx => ha (h12 e'.name hx), hb, hc,
              l', List.mem_cons_of_mem l hl', hrest⟩

theorem Extract_archive_spec {img : Image} {opts : ExtractOptions} {out : List TarEntry}
    (ht : opts.tarball = false)
    (h : Extract img opts = .ok (.archive out)) :
    (out.map TarEntry.name).Nodup ∧
    ∀ e ∈ out, matchesTarget opts.targets e.name = true ∧
      ∃ layers, img.layers = .ok layers ∧ ∃ l ∈ layers, ∃ items,
        l.uncompressed = .ok items ∧ ∃ s, TarItem.entry s ∈ items ∧
          e.name = clean s.name ∧ e.typeflag = s.typeflag ∧ e.content = s.content ∧
          s.typeflag ≠ TypeFlag.typeDir ∧ s.content ≠ [] := by
  unfold Extract at h
  rw [ht] at h
  simp only [Bool.false_eq_true, if_false] at h
  split at h
  · exact absurd h (by simp)
  · split at h
    · exact absurd h (by simp)
    · split at h
      · exact absurd h (by simp)
      · rename_i layers hl
        split at h
        · exact absurd h (by simp)
        · rename_i fst2 out2 hpl
          simp only [Except.ok.injEq, ExtractResult.archive.injEq] at h
          subst h
          obtain ⟨delta, hd1, -, -, hd4, hd5⟩ :=
            processLayers_spec layers.reverse [] [] fst2 out2 hpl
          simp only [List.nil_append] at hd1
          subst hd1
          refine ⟨hd4, ?_⟩
          intro e he
          obtain ⟨-, -, hc, l, hl2, items, hu, hrest⟩ := hd5 e he
          exact ⟨hc, layers, hl, l, List.mem_reverse.mp hl2, items, hu, hrest⟩

/-! ### Duplicate detection, totality, and retrieval lemmas -/

theorem findDup_eq_none_iff : ∀ (ts seen : List String),
    findDup seen ts = none ↔ (ts.Nodup ∧ ∀ t ∈ ts, t ∉ seen) := by
  intro ts
  induction ts with
  | nil => intro seen; simp [findDup]
  | cons t ts ih =>
    intro seen
    simp only [findDup]
    by_cases hm : t ∈ seen
    · rw [if_pos hm]
      constructor
      · intro h; exact absurd h (by simp)
      · rintro ⟨-, hall⟩
        exact absurd hm (hall t (List.mem_cons_self t ts))
    · rw [if_neg hm, ih (t :: seen)]
      constructor
      · rintro ⟨hnd, hall⟩
        refine ⟨List.nodup_cons.mpr ⟨?_, hnd⟩, ?_⟩
        · intro hmem
          exact (hall t hmem) (List.mem_cons_self t seen)
        · intro x hx
          rcases List.mem_cons.mp hx with rfl | hx2
          · exact hm
          · exact fun hs => (hall x hx2) (List.mem_cons_of_mem t hs)
      · rintro ⟨hnd, hall⟩
        obtain ⟨hts, hnd2⟩ := List.nodup_cons.mp hnd
        refine ⟨hnd2, ?_⟩
        intro x hx hmem
        rcases List.mem_cons.mp hmem with rfl | hs
        · exact hts hx
        · exact (hall x (List.mem_cons_of_mem t hx)) hs

theorem processItems_ok_total {targets : List String} :
    ∀ (es : List TarEntry) (pr : List String) (out : List TarEntry),
      ∃ pr2 out2,
        processItems targets okSink (es.map TarItem.entry) pr out = .ok (pr2, out2) := by
  intro es
  induction es with
  | nil => intro pr out; exact ⟨pr, out, rfl⟩
  | cons e es ih =>
    intro pr out
    simp only [List.map_cons, processItems]
    cases hact : entryAction targets pr e with
    | none => simpa only [hact] using ih pr out
    | some name =>
      simp only [hact, okSink]
      exact ih (name :: pr) (out ++ [⟨name, e.typeflag, e.content⟩])

theorem processLayers_ok_total {targets : List String} :
    ∀ (lss : List (List TarEntry)) (pr : List String) (out : List TarEntry),
      ∃ pr2 out2,
        processLayers targets okSink (lss.map goodLayer) pr out = .ok (pr2, out2) := by
  intro lss
  induction lss with
  | nil => intro pr out; exact ⟨pr, out, rfl⟩
  | cons es lss ih =>
    intro pr out
    obtain ⟨pr1, out1, h1⟩ := @processItems_ok_total targets es pr out
    obtain ⟨pr2, out2, h2⟩ := ih pr1 out1
    refine ⟨pr2, out2, ?_⟩
    simp only [List.map_cons, processLayers, goodLayer, h1, h2]

theorem firstDef_ne_none_of_mem {es : List TarEntry} {s : TarEntry} {p : String}
    (hs : s ∈ es) (hdir : s.typeflag ≠ TypeFlag.typeDir) (hc : s.content ≠ [])
    (hcl : clean s.name = p) : firstDef es p ≠ none := by
  induction es with
  | nil => exact absurd hs (List.not_mem_nil s)
  | cons e0 es ih =>
    simp only [firstDef]
    split
    · simp
    · rename_i hcond
      rcases List.mem_cons.mp hs with rfl | h2
      · exact absurd ⟨hdir, fun hz => hc (List.length_eq_zero.mp hz), hcl⟩ hcond
      · exact ih h2

theorem processItems_finds {targets : List String} {p : String} :
    ∀ (es : List TarEntry) (pr : List String) (out : List TarEntry)
      (pr2 : List String) (out2 : List TarEntry) (e : TarEntry),
      processItems targets okSink (es.map TarItem.entry) pr out = .ok (pr2, out2) →
      p ∉ pr → matchesTarget targets p = true → firstDef es p = some e →
      p ∈ pr2 ∧ TarEntry.mk p e.typeflag e.content ∈ out2 := by
  intro es
  induction es with
  | nil => intro pr out pr2 out2 e h hp hm hfd; simp [firstDef] at hfd
  | cons e0 es ih =>
    intro pr out pr2 out2 e h hp hm hfd
    simp only [firstDef] at hfd
    by_cases hcond : e0.typeflag ≠ TypeFlag.typeDir ∧ e0.size ≠ 0 ∧ clean e0.name = p
    · rw [if_pos hcond] at hfd
      rcases Option.some.inj hfd with rfl
      have hact : entryAction targets pr e0 = some p :=
        entryAction_eq_some hcond.1 hcond.2.1 hcond.2.2 hp hm
      simp only [List.map_cons, processItems, hact, okSink] at h
      obtain ⟨delta, hd1, hd2, -, -, -⟩ := processItems_spec _ _ _ _ _ h
      refine ⟨hd2 p (List.mem_cons_self p pr), ?_⟩
      rw [hd1]
      exact List.mem_append_left _ (List.mem_append_right _ (List.mem_singleton.mpr rfl))
    · rw [if_neg hcond] at hfd
      simp only [List.map_cons, processItems] at h
      cases hact : entryAction targets pr e0 with
      | none =>
        simp only [hact] at h
        exact ih pr out pr2 out2 e h hp hm hfd
      | some name =>
        simp only [hact, okSink] at h
        have hne : name ≠ p := by
          obtain ⟨hname, hdir, hcne, -, -⟩ := entryAction_some hact
          intro hcc
          apply hcond
          refine ⟨hdir, fun hz => hcne (List.length_eq_zero.mp hz), ?_⟩
          rw [← hname, hcc]
        refine ih _ _ _ _ e h ?_ hm hfd
        intro hmem
        exact (List.mem_cons.mp hmem).elim (fun h1 => hne h1.symm) hp

theorem processLayers_finds {targets : List String} {p : String} :
    ∀ (lss : List (List TarEntry)) (pr : List String) (out : List TarEntry)
      (pr2 : List String) (out2 : List TarEntry) (e : TarEntry),
      processLayers targets okSink (lss.map goodLayer) pr out = .ok (pr2, out2) →
      p ∉ pr → matchesTarget targets p = true → stackDef lss p = some e →
      p ∈ pr2 ∧ TarEntry.mk p e.typeflag e.content ∈ out2 := by
  intro lss
  induction lss with
  | nil => intro pr out pr2 out2 e h hp hm hsd; simp [stackDef] at hsd
  | cons es lss ih =>
    intro pr out pr2 out2 e h hp hm hsd
    simp only [stackDef] at hsd
    simp only [List.map_cons, processLayers, goodLayer] at h
    cases hpi : processItems targets okSink (es.map TarItem.entry) pr out with
    | error err => simp only [hpi] at h; exact absurd h (by simp)
    | ok st =>
      obtain ⟨pr1, out1⟩ := st
      simp only [hpi] at h
      cases hfd : firstDef es p with
      | some e1 =>
        rw [hfd] at hsd
        rcases Option.some.inj hsd with rfl
        obtain ⟨hppr1, hmem1⟩ := processItems_finds es pr out pr1 out1 e1 hpi hp hm hfd
        obtain ⟨delta, hd1, hd2, -, -, -⟩ := processLayers_spec _ _ _ _ _ h
        exact ⟨hd2 p hppr1, hd1 ▸ List.mem_append_left _ hmem1⟩
      | none =>
        rw [hfd] at hsd
        have hp1 : p ∉ pr1 := by
          intro hmem
          obtain ⟨delta, -, -, hd3, -, hd5⟩ := processItems_spec _ _ _ _ _ hpi
          rcases hd3 p hmem with hx | hx
          · exact hp hx
          · obtain ⟨e', he', hne⟩ := List.mem_map.mp hx
            obtain ⟨-, -, -, s, hsitems, hclean, -, -, hsdir, hscont⟩ := hd5 e' he'
            obtain ⟨s', hs', hs'eq⟩ := List.mem_map.mp hsitems
            have hss : s' = s := by
              injection hs'eq
            subst hss
            exact firstDef_ne_none_of_mem hs' hsdir hscont
              (by rw [← hclean, hne]) hfd
        exact ih pr1 out1 pr2 out2 e h hp1 hm hsd

theorem nodup_names_unique {out : List TarEntry} :
    (out.map TarEntry.name).Nodup →
    ∀ e1 ∈ out, ∀ e2 ∈ out, e1.name = e2.name → e1 = e2 := by
  induction out with
  | nil => intro _ e1 he1; exact absurd he1 (List.not_mem_nil e1)
  | cons e0 rest ih =>
    intro hnd e1 he1 e2 he2 hne
    simp only [List.map_cons, List.nodup_cons] at hnd
    rcases List.mem_cons.mp he1 with rfl | h1 <;> rcases List.mem_cons.mp he2 with rfl | h2
    · rfl
    · exact absurd (List.mem_map.mpr ⟨e2, h2, hne.symm⟩) hnd.1
    · exact absurd (List.mem_map.mpr ⟨e1, h1, hne⟩) hnd.1
    · exact ih hnd.2 e1 h1 e2 h2 hne

/-! ### The walk depends on targets only through the match predicate -/

theorem entryAction_congr {ts1 ts2 : List String} {pr : List String} {e : TarEntry}
    (h : ∀ n, matchesTarget ts1 n = matchesTarget ts2 n) :
    entryAction ts1 pr e = entryAction ts2 pr e := by
  simp only [entryAction, h]

theorem processItems_congr {ts1 ts2 : List String} {sink : Sink}
    (h : ∀ n, matchesTarget ts1 n = matchesTarget ts2 n) :
    ∀ (items : List TarItem) (pr : List String) (out : List TarEntry),
      processItems ts1 sink items pr out = processItems ts2 sink items pr out := by
  intro items
  induction items with
  | nil => intro pr out; rfl
  | cons it rest ih =>
    intro pr out
    cases it with
    | readErr m => rfl
    | entry e =>
      simp only [processItems, @entryAction_congr ts1 ts2 pr e h]
      cases hact : entryAction ts2 pr e with
      | none => exact ih pr out
      | some name =>
        show (match sink.headerFail name with
          | some m => Except.error (ExtractErr.writeHeaderErr name m)
          | none =>
            match sink.copyFail name with
            | some m => Except.error (ExtractErr.copyErr name m)
            | none => processItems ts1 sink rest (name :: pr)
                (out ++ [TarEntry.mk name e.typeflag e.content])) =
          match sink.headerFail name with
          | some m => Except.error (ExtractErr.writeHeaderErr name m)
          | none =>
            match sink.copyFail name with
            | some m => Except.error (ExtractErr.copyErr name m)
            | none => processItems ts2 sink rest (name :: pr)
                (out ++ [TarEntry.mk name e.typeflag e.content])
        cases sink.headerFail name with
        | some m => rfl
        | none =>
          cases sink.copyFail name with
          | some m => rfl
          | none => exact ih _ _

theorem processLayers_congr {ts1 ts2 : List String} {sink : Sink}
    (h : ∀ n, matchesTarget ts1 n = matchesTarget ts2 n) :
    ∀ (ls : List Layer) (pr : List String) (out : List TarEntry),
      processLayers ts1 sink ls pr out = processLayers ts2 sink ls pr out := by
  intro ls
  induction ls with
  | nil => intro pr out; rfl
  | cons l ls ih =>
    intro pr out
    simp only [processLayers, processItems_congr h]
    cases hu : l.uncompressed with
    | error m => rfl
    | ok items =>
      show (match processItems ts2 sink items pr out with
        | Except.error err => Except.error err
        | Except.ok (pr2, out2) => processLayers ts1 sink ls pr2 out2) =
        match processItems ts2 sink items pr out with
        | Except.error err => Except.error err
        | Except.ok (pr2, out2) => processLayers ts2 sink ls pr2 out2
      cases processItems ts2 sink items pr out with
      | error err => rfl
      | ok st =>
        obtain ⟨pr1, out1⟩ := st
        exact ih pr1 out1

/-! ### What successes exclude and what errors certify -/

theorem processItems_ok_no_readErr {targets : List String} {sink : Sink} :
    ∀ (items : List TarItem) (pr : List String) (out : List TarEntry)
      (st : List String × List TarEntry),
      processItems targets sink items pr out = .ok st →
      ∀ m, TarItem.readErr m ∉ items := by
  intro items
  induction items with
  | nil => intro pr out st h m hm; exact absurd hm (List.not_mem_nil _)
  | cons it rest ih =>
    intro pr out st h m hm
    cases it with
    | readErr m2 => simp [processItems] at h
    | entry e =>
      rcases List.mem_cons.mp hm with heq | hmem
      · exact TarItem.noConfusion heq
      · simp only [processItems] at h
        cases hact : entryAction targets pr e with
        | none =>
          simp only [hact] at h
          exact ih _ _ _ h m hmem
        | some name =>
          simp only [hact] at h
          cases hhf : sink.headerFail name with
          | some m3 => simp [hhf] at h
          | none =>
            simp only [hhf] at h
            cases hcf : sink.copyFail name with
            | some m3 => simp [hcf] at h
            | none =>
              simp only [hcf] at h
              exact ih _ _ _ h m hmem

theorem processLayers_ok_all_good {targets : List String} {sink : Sink} :
    ∀ (ls : List Layer) (pr : List String) (out : List TarEntry)
      (st : List String × List TarEntry),
      processLayers targets sink ls pr out = .ok st →
      ∀ l ∈ ls, ∃ items, l.uncompressed = Except.ok items ∧
        ∀ m, TarItem.readErr m ∉ items := by
  intro ls
  induction ls with
  | nil => intro pr out st h l hl; exact absurd hl (List.not_mem_nil l)
  | cons l0 ls ih =>
    intro pr out st h l hl
    simp only [processLayers] at h
    cases hu : l0.uncompressed with
    | error m => simp [hu] at h
    | ok items =>
      simp only [hu] at h
      cases hpi : processItems targets sink items pr out with
      | error err => simp [hpi] at h
      | ok st1 =>
        obtain ⟨pr1, out1⟩ := st1
        simp only [hpi] at h
        rcases List.mem_cons.mp hl with rfl | hmem
        · exact ⟨items, hu, processItems_ok_no_readErr items pr out (pr1, out1) hpi⟩
        · exact ih pr1 out1 st h l hmem

theorem processItems_error_spec {targets : List String} {sink : Sink} :
    ∀ (items : List TarItem) (pr : List String) (out : List TarEntry) (err : ExtractErr),
      processItems targets sink items pr out = .error err →
      (∃ m, err = .readingTar m ∧ TarItem.readErr m ∈ items) ∨
      (∃ name m, err = .writeHeaderErr name m ∧ sink.headerFail name = some m ∧
        ∃ s, TarItem.entry s ∈ items ∧ name = clean s.name) ∨
      (∃ name m, err = .copyErr name m ∧ sink.headerFail name = none ∧
        sink.copyFail name = some m ∧
        ∃ s, TarItem.entry s ∈ items ∧ name = clean s.name) := by
  intro items
  induction items with
  | nil => intro pr out err h; simp [processItems] at h
  | cons it rest ih =>
    intro pr out err h
    cases it with
    | readErr m =>
      simp only [processItems, Except.error.injEq] at h
      exact Or.inl ⟨m, h.symm, List.mem_cons_self _ _⟩
    | entry e =>
      simp only [processItems] at h
      cases hact : entryAction targets pr e with
      | none =>
        simp only [hact] at h
        rcases ih _ _ _ h with h1 | h2 | h3
        · obtain ⟨m, he, hmem⟩ := h1
          exact Or.inl ⟨m, he, List.mem_cons_of_mem _ hmem⟩
        · obtain ⟨name, m, he, hsf, s, hs, hn⟩ := h2
          exact Or.inr (Or.inl ⟨name, m, he, hsf, s, List.mem_cons_of_mem _ hs, hn⟩)
        · obtain ⟨name, m, he, hh, hcfs, s, hs, hn⟩ := h3
          exact Or.inr (Or.inr ⟨name, m, he, hh, hcfs, s, List.mem_cons_of_mem _ hs, hn⟩)
      | some name =>
        simp only [hact] at h
        obtain ⟨hname, -, -, -, -⟩ := entryAction_some hact
        cases hhf : sink.headerFail name with
        | some m =>
          simp only [hhf, Except.error.injEq] at h
          exact Or.inr (Or.inl ⟨name, m, h.symm, hhf, e, List.mem_cons_self _ _, hname⟩)
        | none =>
          simp only [hhf] at h
          cases hcf : sink.copyFail name with
          | some m =>
            simp only [hcf, Except.error.injEq] at h
            exact Or.inr (Or.inr ⟨name, m, h.symm, hhf, hcf, e, List.mem_cons_self _ _, hname⟩)
          | none =>
            simp only [hcf] at h
            rcases ih _ _ _ h with h1 | h2 | h3
            · obtain ⟨m, he, hmem⟩ := h1
              exact Or.inl ⟨m, he, List.mem_cons_of_mem _ hmem⟩
            · obtain ⟨name2, m, he, hsf, s, hs, hn⟩ := h2
              exact Or.inr (Or.inl ⟨name2, m, he, hsf, s, List.mem_cons_of_mem _ hs, hn⟩)
            · obtain ⟨name2, m, he, hh, hcfs, s, hs, hn⟩ := h3
              exact Or.inr (Or.inr ⟨name2, m, he, hh, hcfs, s, List.mem_cons_of_mem _ hs, hn⟩)

theorem processLayers_error_spec {targets : List String} {sink : Sink} :
    ∀ (ls : List Layer) (pr : List String) (out : List TarEntry) (err : ExtractErr),
      processLayers targets sink ls pr out = .error err →
      (∃ m, err = .readingLayerContents m ∧ ∃ l ∈ ls, l.uncompressed = Except.error m) ∨
      (∃ m, err = .readingTar m ∧ ∃ l ∈ ls, ∃ items,
        l.uncompressed = Except.ok items ∧ TarItem.readErr m ∈ items) ∨
      (∃ name m, err = .writeHeaderErr name m ∧ sink.headerFail name = some m ∧
        ∃ l ∈ ls, ∃ items, l.uncompressed = Except.ok items ∧
          ∃ s, TarItem.entry s ∈ items ∧ name = clean s.name) ∨
      (∃ name m, err = .copyErr name m ∧ sink.headerFail name = none ∧
        sink.copyFail name = some m ∧
        ∃ l ∈ ls, ∃ items, l.uncompressed = Except.ok items ∧
          ∃ s, TarItem.entry s ∈ items ∧ name = clean s.name) := by
  intro ls
  induction ls with
  | nil => intro pr out err h; simp [processLayers] at h
  | cons l0 ls ih =>
    intro pr out err h
    simp only [processLayers] at h
    cases hu : l0.uncompressed with
    | error m =>
      simp only [hu, Except.error.injEq] at h
      exact Or.inl ⟨m, h.symm, l0, List.mem_cons_self _ _, hu⟩
    | ok items =>
      simp only [hu] at h
      cases hpi : processItems targets sink items pr out with
      | error err2 =>
        simp only [hpi, Except.error.injEq] at h
        subst h
        rcases processItems_error_spec items pr out err2 hpi with h1 | h2 | h3
        · obtain ⟨m, he, hmem⟩ := h1
          exact Or.inr (Or.inl ⟨m, he, l0, List.mem_cons_self _ _, items, hu, hmem⟩)
        · obtain ⟨name, m, he, hsf, s, hs, hn⟩ := h2
          exact Or.inr (Or.inr (Or.inl
            ⟨name, m, he, hsf, l0, List.mem_cons_self _ _, items, hu, s, hs, hn⟩))
        · obtain ⟨name, m, he, hh, hcfs, s, hs, hn⟩ := h3
          exact Or.inr (Or.inr (Or.inr
            ⟨name, m, he, hh, hcfs, l0, List.mem_cons_self _ _, items, hu, s, hs, hn⟩))
      | ok st1 =>
        obtain ⟨pr1, out1⟩ := st1
        simp only [hpi] at h
        rcases ih pr1 out1 err h with h1 | h2 | h3 | h4
        · obtain ⟨m, he, l, hl, hul⟩ := h1
          exact Or.inl ⟨m, he, l, List.mem_cons_of_mem l0 hl, hul⟩
        · obtain ⟨m, he, l, hl, hrest⟩ := h2
          exact Or.inr (Or.inl ⟨m, he, l, List.mem_cons_of_mem l0 hl, hrest⟩)
        · obtain ⟨name, m, he, hsf, l, hl, hrest⟩ := h3
          exact Or.inr (Or.inr (Or.inl
            ⟨name, m, he, hsf, l, List.mem_cons_of_mem l0 hl, hrest⟩))
        · obtain ⟨name, m, he, hh, hcfs, l, hl, hrest⟩ := h4
          exact Or.inr (Or.inr (Or.inr
            ⟨name, m, he, hh, hcfs, l, List.mem_cons_of_mem l0 hl, hrest⟩))

theorem findDup_some_mem : ∀ (ts seen : List String) (t : String),
    findDup seen ts = some t → t ∈ ts := by
  intro ts
  induction ts with
  | nil => intro seen t h; simp [findDup] at h
  | cons a as ih =>
    intro seen t h
    simp only [findDup] at h
    split at h
    · rcases Option.some.inj h with rfl
      exact List.mem_cons_self a as
    · exact List.mem_cons_of_mem a (ih (a :: seen) t h)

theorem Extract_valid_eq {img : Image} {t0 : String} {ts : List String} {sink : Sink}
    (hfd : findDup [] (t0 :: ts) = none) :
    Extract img ⟨false, t0 :: ts, sink⟩ =
      match img.layers with
      | Except.error m => Except.error (ExtractErr.retrievingLayers m)
      | Except.ok layers =>
        match processLayers (t0 :: ts) sink layers.reverse [] [] with
        | Except.error err => Except.error err
        | Except.ok (_, out) => Except.ok (ExtractResult.archive out) := by
  show (match findDup [] (t0 :: ts) with
    | some t => Except.error (ExtractErr.duplicateTarget t)
    | none =>
      match img.layers with
      | Except.error m => Except.error (ExtractErr.retrievingLayers m)
      | Except.ok layers =>
        match processLayers (t0 :: ts) sink layers.reverse [] [] with
        | Except.error err => Except.error err
        | Except.ok (_, out) => Except.ok (ExtractResult.archive out)) = _
  rw [hfd]

/-! ### Claim theorems -/

/-- C6: with no tarball writer set and an empty (nil) `Targets` list,
`Extract` fails with the no-targets validation error for every image and
every sink — independently of the layers, hence before any layer is read
or any I/O performed. -/
theorem C6_no_targets_validation (img : Image) (sink : Sink) :
    Extract img ⟨false, [], sink⟩ = .error .noTarget := rfl

/-- C9: with the tarball writer set, `Extract` delegates directly to the
whole-image export for every targets list — nil, empty, or
duplicate-containing — producing no validation error, and the destination
archive result is never produced. -/
theorem C9_tarball_bypasses_validation (img : Image) (ts : List String) (sink : Sink) :
    Extract img ⟨true, ts, sink⟩ =
      (match img.exportResult with
        | Except.ok _ => Except.ok ExtractResult.exported
        | Except.error m => Except.error (ExtractErr.exportErr m)) ∧
    ∀ out, Extract img ⟨true, ts, sink⟩ ≠ Except.ok (.archive out) := by
  refine ⟨rfl, ?_⟩
  intro out h
  rw [show Extract img ⟨true, ts, sink⟩ = (match img.exportResult with
    | Except.ok _ => Except.ok ExtractResult.exported
    | Except.error m => Except.error (ExtractErr.exportErr m)) from rfl] at h
  cases he : img.exportResult with
  | ok u => rw [he] at h; exact absurd h (by simp)
  | error m => rw [he] at h; exact absurd h (by simp)

/-- C2: the engine does not honor whiteout markers. With an older layer
defining `a/b` and the most recent layer holding only the whiteout entry
`a/.wh.b` (a zero-size file, skipped by the walk, and never recorded in
the processed set), `Extract` still emits the shadowed `a/b` content from
the older layer instead of omitting the target. -/
theorem C2_whiteout_shadowed_file_still_extracted :
    Extract (mkImage [[⟨"a/b", .typeReg, [1, 2, 3]⟩], [⟨"a/.wh.b", .typeReg, []⟩]])
      ⟨false, ["a/b"], okSink⟩ = .ok (.archive [⟨"a/b", .typeReg, [1, 2, 3]⟩]) := by
  decide

/-- C3 (counterexample): the targets `x` and `/x` become equal after a
single leading separator is stripped, yet `Extract` raises no
duplicate-target error — it succeeds and extracts the path once. -/
theorem C3_normalized_duplicate_not_rejected :
    Extract (mkImage [[⟨"x", .typeReg, [7]⟩]]) ⟨false, ["x", "/x"], okSink⟩ =
      .ok (.archive [⟨"x", .typeReg, [7]⟩]) := by
  decide

/-- C3 (amended): duplicate detection compares the raw target strings: a
list containing the same exact string twice is rejected with the
duplicate-target error naming that string, for every image and sink — so
before any layer enters the computation; spellings that coincide only
after normalization (such as `x` and `/x`) pass this validation. -/
theorem C3_exact_duplicate_rejected {ts : List String} (h : ¬ ts.Nodup) :
    ∃ t ∈ ts, ∀ (img : Image) (sink : Sink),
      Extract img ⟨false, ts, sink⟩ = .error (.duplicateTarget t) := by
  cases ts with
  | nil => exact absurd List.nodup_nil h
  | cons t0 ts' =>
    cases hfd : findDup [] (t0 :: ts') with
    | none => exact absurd ((findDup_eq_none_iff _ []).mp hfd).1 h
    | some t =>
      refine ⟨t, findDup_some_mem _ [] t hfd, ?_⟩
      intro img sink
      show (match findDup [] (t0 :: ts') with
        | some u => Except.error (ExtractErr.duplicateTarget u)
        | none =>
          match img.layers with
          | Except.error m => Except.error (ExtractErr.retrievingLayers m)
          | Except.ok layers =>
            match processLayers (t0 :: ts') sink layers.reverse [] [] with
            | Except.error err => Except.error err
            | Except.ok (_, out) => Except.ok (ExtractResult.archive out)) =
        Except.error (ExtractErr.duplicateTarget t)
      rw [hfd]

/-- Witness for C3 (amended): the list that repeats the string `x` twice is
rejected with the duplicate-target error on every image. -/
theorem C3_exact_duplicate_rejected_witness :
    ¬ (["x", "x"] : List String).Nodup ∧
    ∃ t ∈ (["x", "x"] : List String), ∀ (img : Image) (sink : Sink),
      Extract img ⟨false, ["x", "x"], sink⟩ = .error (.duplicateTarget t) :=
  ⟨by decide, C3_exact_duplicate_rejected (by decide)⟩

/-- C4: every successful non-tarball extraction writes at most as many
entries as there are requested targets, the written names are pairwise
distinct, and each written name equals some requested target with a single
leading separator stripped. -/
theorem C4_output_bounded_by_targets {img : Image} {opts : ExtractOptions}
    {out : List TarEntry} (ht : opts.tarball = false)
    (h : Extract img opts = .ok (.archive out)) :
    out.length ≤ opts.targets.length ∧
    (out.map TarEntry.name).Nodup ∧
    ∀ e ∈ out, ∃ t ∈ opts.targets, e.name = trimLeadingSlash t := by
  obtain ⟨hnd, hall⟩ := Extract_archive_spec ht h
  have hsub : ∀ e ∈ out, ∃ t ∈ opts.targets, e.name = trimLeadingSlash t := by
    intro e he
    obtain ⟨hmt, -⟩ := hall e he
    obtain ⟨t, htm, hbeq⟩ := List.any_eq_true.mp hmt
    exact ⟨t, htm, eq_of_beq hbeq⟩
  refine ⟨?_, hnd, hsub⟩
  have hmapsub : (out.map TarEntry.name) ⊆ opts.targets.map trimLeadingSlash := by
    intro x hx
    obtain ⟨e, he, rfl⟩ := List.mem_map.mp hx
    obtain ⟨t, htm, heq⟩ := hsub e he
    rw [heq]
    exact List.mem_map.mpr ⟨t, htm, rfl⟩
  have hle := (List.subperm_of_subset hnd hmapsub).length_le
  rw [List.length_map, List.length_map] at hle
  exact hle

/-- Witness for C4: a two-target request against a one-file layer yields
one entry, with a distinct name equal to a stripped target. -/
theorem C4_output_bounded_by_targets_witness :
    [TarEntry.mk ("x") TypeFlag.typeReg [7]].length ≤ (["x", "y"] : List String).length ∧
    ([TarEntry.mk ("x") TypeFlag.typeReg [7]].map TarEntry.name).Nodup ∧
    ∀ e ∈ [TarEntry.mk ("x") TypeFlag.typeReg [7]],
      ∃ t ∈ (["x", "y"] : List String), e.name = trimLeadingSlash t :=
  @C4_output_bounded_by_targets (mkImage [[⟨"x", .typeReg, [7]⟩]])
    ⟨false, ["x", "y"], okSink⟩ [TarEntry.mk ("x") TypeFlag.typeReg [7]] rfl (by decide)

/-- C10 (counterexample): a target that contains a doubled separator can
match an entry: the target `//x` is trimmed to `/x`, which equals the
cleaned name of a layer entry `/x`, so the entry is extracted rather than
silently absent. -/
theorem C10_doubled_separator_target_matches :
    Extract (mkImage [[⟨"/x", .typeReg, [5]⟩]]) ⟨false, ["//x"], okSink⟩ =
      .ok (.archive [⟨"/x", .typeReg, [5]⟩]) := by
  decide

/-- C10 (amended): entry names are cleaned while targets only lose a
single leading separator; hence a target that, after that strip, still
begins with `./`, still contains a doubled separator, or still ends with a
separator without being exactly the root path, can never equal a written
entry name — such a target is silently absent from every successful
output. -/
theorem C10_noncanonical_target_never_matches {img : Image} {opts : ExtractOptions}
    {out : List TarEntry} (ht : opts.tarball = false)
    (h : Extract img opts = .ok (.archive out)) :
    ∀ t ∈ opts.targets, badTargetForm (trimLeadingSlash t) →
      ∀ e ∈ out, e.name ≠ trimLeadingSlash t := by
  intro t htm hbad e he heq
  obtain ⟨-, hall⟩ := Extract_archive_spec ht h
  obtain ⟨-, layers, -, l, -, items, -, s, -, hclean, -⟩ := hall e he
  exact clean_not_bad s.name (by rw [← hclean, heq]; exact hbad)

/-- Witness for C10 (amended): requesting `./a/b` against a layer that
contains `a/b` succeeds with an empty archive, and no entry carries the
trimmed target name. -/
theorem C10_noncanonical_target_never_matches_witness :
    badTargetForm (trimLeadingSlash ("./a/b")) ∧
    ∀ t ∈ (["./a/b"] : List String), badTargetForm (trimLeadingSlash t) →
      ∀ e ∈ ([] : List TarEntry), e.name ≠ trimLeadingSlash t :=
  ⟨by unfold badTargetForm; decide,
    @C10_noncanonical_target_never_matches (mkImage [[⟨"a/b", .typeReg, [1]⟩]])
      ⟨false, ["./a/b"], okSink⟩ [] rfl (by decide)⟩

/-- C7: a requested target whose trimmed form matches no cleaned entry
name in any layer is silently omitted: the extraction still succeeds (no
error is signaled) and the output archive simply lacks an entry for that
target. -/
theorem C7_absent_target_not_an_error {lss : List (List TarEntry)} {ts : List String}
    {t : String} (htm : t ∈ ts) (hnd : ts.Nodup)
    (habs : ∀ es ∈ lss, ∀ s ∈ es, clean s.name ≠ trimLeadingSlash t) :
    ∃ out, Extract (mkImage lss) ⟨false, ts, okSink⟩ = .ok (.archive out) ∧
      ∀ e ∈ out, e.name ≠ trimLeadingSlash t := by
  cases ts with
  | nil => exact absurd htm (List.not_mem_nil t)
  | cons t0 ts' =>
    obtain ⟨pr2, out2, hpl⟩ :=
      @processLayers_ok_total (t0 :: ts') lss.reverse [] []
    refine ⟨out2, ?_, ?_⟩
    · rw [Extract_valid_eq ((findDup_eq_none_iff _ []).mpr ⟨hnd, by simp⟩)]
      show (match processLayers (t0 :: ts') okSink (lss.map goodLayer).reverse [] [] with
        | Except.error err => Except.error err
        | Except.ok (_, o) => Except.ok (ExtractResult.archive o)) =
        Except.ok (ExtractResult.archive out2)
      rw [show (lss.map goodLayer).reverse = lss.reverse.map goodLayer from
        (List.map_reverse goodLayer lss).symm, hpl]
    · intro e he heq
      obtain ⟨delta, hd1, -, -, -, hd5⟩ := processLayers_spec _ _ _ _ _ hpl
      simp only [List.nil_append] at hd1
      subst hd1
      obtain ⟨-, -, -, l, hl, items, hu, s, hsit, hclean, -⟩ := hd5 e he
      obtain ⟨es, hes, rfl⟩ := List.mem_map.mp hl
      have hitems : items = es.map TarItem.entry := by
        have := hu
        simp only [goodLayer, Except.ok.injEq] at this
        exact this.symm
      subst hitems
      obtain ⟨s', hs', hs'eq⟩ := List.mem_map.mp hsit
      have hss : s' = s := by injection hs'eq
      subst hss
      exact habs es (List.mem_reverse.mp hes) s' hs' (by rw [← hclean, heq])

/-- Witness for C7: requesting the absent `z` together with the present
`x` succeeds, and the output has no entry named `z`. -/
theorem C7_absent_target_not_an_error_witness :
    (("z" : String) ∈ (["x", "z"] : List String)) ∧
    ∃ out, Extract (mkImage [[⟨"x", .typeReg, [1]⟩]]) ⟨false, ["x", "z"], okSink⟩ =
        .ok (.archive out) ∧
      ∀ e ∈ out, e.name ≠ trimLeadingSlash ("z") :=
  ⟨by decide,
    @C7_absent_target_not_an_error [[⟨"x", .typeReg, [1]⟩]] ["x", "z"] ("z") (by decide)
      (by decide) (by decide)⟩

/-- C1: overlay precedence. For a requested target whose path is defined
(as a non-directory, non-empty entry) in two or more layers, the
successful extraction contains the content of the most-recent layer that
defines the path, and every entry in the output for that path carries
exactly that content — content from older layers never appears for it. -/
theorem C1_overlay_precedence {lss : List (List TarEntry)} {ts : List String}
    {t : String} {e : TarEntry} (htm : t ∈ ts) (hnd : ts.Nodup)
    (_hcount : 2 ≤ lss.countP (fun es => (firstDef es (trimLeadingSlash t)).isSome))
    (hsd : stackDef lss.reverse (trimLeadingSlash t) = some e) :
    ∃ out, Extract (mkImage lss) ⟨false, ts, okSink⟩ = .ok (.archive out) ∧
      TarEntry.mk (trimLeadingSlash t) e.typeflag e.content ∈ out ∧
      ∀ e2 ∈ out, e2.name = trimLeadingSlash t → e2.content = e.content := by
  cases ts with
  | nil => exact absurd htm (List.not_mem_nil t)
  | cons t0 ts' =>
    obtain ⟨pr2, out2, hpl⟩ := @processLayers_ok_total (t0 :: ts') lss.reverse [] []
    have hm : matchesTarget (t0 :: ts') (trimLeadingSlash t) = true :=
      List.any_eq_true.mpr ⟨t, htm, beq_self_eq_true (trimLeadingSlash t)⟩
    obtain ⟨hppr2, hmem⟩ := processLayers_finds lss.reverse [] [] pr2 out2 e hpl
      (List.not_mem_nil _) hm hsd
    obtain ⟨delta, hd1, -, -, hd4, -⟩ := processLayers_spec _ _ _ _ _ hpl
    simp only [List.nil_append] at hd1
    subst hd1
    refine ⟨out2, ?_, hmem, ?_⟩
    · rw [Extract_valid_eq ((findDup_eq_none_iff _ []).mpr ⟨hnd, by simp⟩)]
      show (match processLayers (t0 :: ts') okSink (lss.map goodLayer).reverse [] [] with
        | Except.error err => Except.error err
        | Except.ok (_, o) => Except.ok (ExtractResult.archive o)) =
        Except.ok (ExtractResult.archive out2)
      rw [show (lss.map goodLayer).reverse = lss.reverse.map goodLayer from
        (List.map_reverse goodLayer lss).symm, hpl]
    · intro e2 he2 hname
      have heq2 : e2 = TarEntry.mk (trimLeadingSlash t) e.typeflag e.content :=
        nodup_names_unique hd4 e2 he2 _ hmem hname
      rw [heq2]

/-- Witness for C1: the path `x` is defined in both layers; the output
holds the most-recent content `[2]` and nothing with content `[1]`. -/
theorem C1_overlay_precedence_witness :
    2 ≤ ([[TarEntry.mk ("x") TypeFlag.typeReg [1]],
          [TarEntry.mk ("x") TypeFlag.typeReg [2]]].countP
        (fun es => (firstDef es (trimLeadingSlash ("x"))).isSome)) ∧
    ∃ out, Extract (mkImage [[⟨"x", .typeReg, [1]⟩], [⟨"x", .typeReg, [2]⟩]])
        ⟨false, ["x"], okSink⟩ = .ok (.archive out) ∧
      TarEntry.mk (trimLeadingSlash ("x")) TypeFlag.typeReg [2] ∈ out ∧
      ∀ e2 ∈ out, e2.name = trimLeadingSlash ("x") → e2.content = [2] :=
  ⟨by decide,
    @C1_overlay_precedence [[⟨"x", .typeReg, [1]⟩], [⟨"x", .typeReg, [2]⟩]] ["x"]
      ("x") ⟨"x", .typeReg, [2]⟩ (by decide) (by decide) (by decide) (by decide)⟩

/-- C5: extracting target `a/b` and target `/a/b` is indistinguishable on
every image and sink; and against a single layer containing the entry
`./a/b` with any non-empty content, both runs succeed and produce the
identical single entry under the cleaned name `a/b`. -/
theorem C5_leading_separator_normalization (c : List Nat) (hc : c ≠ []) :
    (∀ (img : Image) (sink : Sink),
      Extract img ⟨false, ["a/b"], sink⟩ = Extract img ⟨false, ["/a/b"], sink⟩) ∧
    Extract (mkImage [[⟨"./a/b", .typeReg, c⟩]]) ⟨false, ["a/b"], okSink⟩ =
      .ok (.archive [⟨"a/b", .typeReg, c⟩]) ∧
    Extract (mkImage [[⟨"./a/b", .typeReg, c⟩]]) ⟨false, ["/a/b"], okSink⟩ =
      .ok (.archive [⟨"a/b", .typeReg, c⟩]) := by
  obtain ⟨b, bs, rfl⟩ := List.exists_cons_of_ne_nil hc
  refine ⟨?_, rfl, rfl⟩
  intro img sink
  have hm : ∀ n, matchesTarget ["a/b"] n = matchesTarget ["/a/b"] n := by
    intro n
    simp only [matchesTarget, List.any_cons, List.any_nil]
    rw [show trimLeadingSlash ("/a/b") = trimLeadingSlash ("a/b") from by decide]
  rw [Extract_valid_eq (by decide), Extract_valid_eq (by decide)]
  cases img.layers with
  | error m => rfl
  | ok layers =>
    show (match processLayers ["a/b"] sink layers.reverse [] [] with
      | Except.error err => Except.error err
      | Except.ok (_, o) => Except.ok (ExtractResult.archive o)) =
      match processLayers ["/a/b"] sink layers.reverse [] [] with
      | Except.error err => Except.error err
      | Except.ok (_, o) => Except.ok (ExtractResult.archive o)
    rw [processLayers_congr hm layers.reverse]

/-- Witness for C5 at the concrete non-empty content `[1]`. -/
theorem C5_leading_separator_normalization_witness :
    (∀ (img : Image) (sink : Sink),
      Extract img ⟨false, ["a/b"], sink⟩ = Extract img ⟨false, ["/a/b"], sink⟩) ∧
    Extract (mkImage [[⟨"./a/b", .typeReg, [1]⟩]]) ⟨false, ["a/b"], okSink⟩ =
      .ok (.archive [⟨"a/b", .typeReg, [1]⟩]) ∧
    Extract (mkImage [[⟨"./a/b", .typeReg, [1]⟩]]) ⟨false, ["/a/b"], okSink⟩ =
      .ok (.archive [⟨"a/b", .typeReg, [1]⟩]) :=
  C5_leading_separator_normalization [1] (by decide)

/-- C8 (counterexample): the returned error does not identify the
offending layer. Two images whose failing tar stream sits in different
layers — most recent in the first, oldest (below a healthy layer) in the
second — produce exactly the same error value. -/
theorem C8_error_does_not_identify_layer :
    Extract ⟨.ok [⟨.ok []⟩, ⟨.ok [.readErr ("disk error")]⟩], .ok ()⟩
        ⟨false, ["x"], okSink⟩ =
      Extract ⟨.ok [⟨.ok [.readErr ("disk error")]⟩, ⟨.ok []⟩], .ok ()⟩
        ⟨false, ["x"], okSink⟩ ∧
    Extract ⟨.ok [⟨.ok []⟩, ⟨.ok [.readErr ("disk error")]⟩], .ok ()⟩
        ⟨false, ["x"], okSink⟩ = .error (.readingTar ("disk error")) := by
  decide

/-- C8 (amended): every I/O failure aborts the extraction and surfaces as
the corresponding wrapped error, wherever it sits in the stack: a
validated call can succeed only when every layer opens and its whole tar
stream decodes without failure; and every error such a call returns is the
wrap of an actual failure — a failing layer open wrapped as the
layer-contents error with the underlying message, a decode failure present
in some layer's stream wrapped as the tar-reading error, or a destination
header-write or content-copy failure wrapped together with the offending
cleaned entry path. Layer-level wraps carry only the underlying message,
never the identity of the failing layer. -/
theorem C8_io_failures_abort_wrapped {img : Image} {opts : ExtractOptions}
    {layers : List Layer} (ht : opts.tarball = false)
    (hts : opts.targets ≠ []) (hnd : opts.targets.Nodup)
    (hl : img.layers = Except.ok layers) :
    (∀ res, Extract img opts = .ok res →
      ∀ l ∈ layers, ∃ items, l.uncompressed = Except.ok items ∧
        ∀ m, TarItem.readErr m ∉ items) ∧
    (∀ err, Extract img opts = .error err →
      (∃ m, err = .readingLayerContents m ∧
        ∃ l ∈ layers, l.uncompressed = Except.error m) ∨
      (∃ m, err = .readingTar m ∧ ∃ l ∈ layers, ∃ items,
        l.uncompressed = Except.ok items ∧ TarItem.readErr m ∈ items) ∨
      (∃ name m, err = .writeHeaderErr name m ∧
        opts.destination.headerFail name = some m ∧
        ∃ l ∈ layers, ∃ items, l.uncompressed = Except.ok items ∧
          ∃ s, TarItem.entry s ∈ items ∧ name = clean s.name) ∨
      (∃ name m, err = .copyErr name m ∧
        opts.destination.headerFail name = none ∧
        opts.destination.copyFail name = some m ∧
        ∃ l ∈ layers, ∃ items, l.uncompressed = Except.ok items ∧
          ∃ s, TarItem.entry s ∈ items ∧ name = clean s.name)) := by
  have hfd : findDup [] opts.targets = none :=
    (findDup_eq_none_iff _ []).mpr ⟨hnd, by simp⟩
  constructor
  · intro res h
    unfold Extract at h
    rw [ht] at h
    simp only [Bool.false_eq_true, if_false] at h
    split at h
    · exact absurd h (by simp)
    · split at h
      · exact absurd h (by simp)
      · split at h
        · exact absurd h (by simp)
        · rename_i layers2 hl2
          split at h
          · exact absurd h (by simp)
          · rename_i fst2 out2 hpl
            rw [hl] at hl2
            rcases Except.ok.inj hl2 with rfl
            intro l hlm
            exact processLayers_ok_all_good layers.reverse [] [] (fst2, out2) hpl l
              (List.mem_reverse.mpr hlm)
  · intro err h
    unfold Extract at h
    rw [ht] at h
    simp only [Bool.false_eq_true, if_false] at h
    split at h
    · rename_i hie
      exact absurd (List.isEmpty_iff.mp hie) hts
    · split at h
      · rename_i t hfd2
        rw [hfd] at hfd2
        exact absurd hfd2 (by simp)
      · split at h
        · rename_i m hl2
          rw [hl] at hl2
          exact absurd hl2 (by simp)
        · rename_i layers2 hl2
          split at h
          · rename_i err2 hpl
            simp only [Except.error.injEq] at h
            subst h
            rw [hl] at hl2
            rcases Except.ok.inj hl2 with rfl
            rcases processLayers_error_spec layers.reverse [] [] err2 hpl
              with h1 | h2 | h3 | h4
            · obtain ⟨m, he, l, hlm, hul⟩ := h1
              exact Or.inl ⟨m, he, l, List.mem_reverse.mp hlm, hul⟩
            · obtain ⟨m, he, l, hlm, hrest⟩ := h2
              exact Or.inr (Or.inl ⟨m, he, l, List.mem_reverse.mp hlm, hrest⟩)
            · obtain ⟨name, m, he, hsf, l, hlm, hrest⟩ := h3
              exact Or.inr (Or.inr (Or.inl
                ⟨name, m, he, hsf, l, List.mem_reverse.mp hlm, hrest⟩))
            · obtain ⟨name, m, he, hh, hcfs, l, hlm, hrest⟩ := h4
              exact Or.inr (Or.inr (Or.inr
                ⟨name, m, he, hh, hcfs, l, List.mem_reverse.mp hlm, hrest⟩))
          · exact absurd h (by simp)

/-- Witness for C8 (amended): a stack whose oldest layer fails to open
beneath a healthy most-recent layer; the hypotheses are discharged
concretely and both directions of the characterization apply. -/
theorem C8_io_failures_abort_wrapped_witness :
    (∀ res, Extract ⟨Except.ok [⟨Except.error ("open failed")⟩, ⟨Except.ok []⟩], Except.ok ()⟩
        ⟨false, ["x"], okSink⟩ = Except.ok res →
      ∀ l ∈ [(⟨Except.error ("open failed")⟩ : Layer), ⟨Except.ok []⟩],
        ∃ items, l.uncompressed = Except.ok items ∧ ∀ m, TarItem.readErr m ∉ items) ∧
    (∀ err, Extract ⟨Except.ok [⟨Except.error ("open failed")⟩, ⟨Except.ok []⟩], Except.ok ()⟩
        ⟨false, ["x"], okSink⟩ = Except.error err →
      (∃ m, err = ExtractErr.readingLayerContents m ∧
        ∃ l ∈ [(⟨Except.error ("open failed")⟩ : Layer), ⟨Except.ok []⟩],
          l.uncompressed = Except.error m) ∨
      (∃ m, err = ExtractErr.readingTar m ∧
        ∃ l ∈ [(⟨Except.error ("open failed")⟩ : Layer), ⟨Except.ok []⟩],
          ∃ items, l.uncompressed = Except.ok items ∧ TarItem.readErr m ∈ items) ∨
      (∃ name m, err = ExtractErr.writeHeaderErr name m ∧
        okSink.headerFail name = some m ∧
        ∃ l ∈ [(⟨Except.error ("open failed")⟩ : Layer), ⟨Except.ok []⟩],
          ∃ items, l.uncompressed = Except.ok items ∧
            ∃ s, TarItem.entry s ∈ items ∧ name = clean s.name) ∨
      (∃ name m, err = ExtractErr.copyErr name m ∧
        okSink.headerFail name = none ∧ okSink.copyFail name = some m ∧
        ∃ l ∈ [(⟨Except.error ("open failed")⟩ : Layer), ⟨Except.ok []⟩],
          ∃ items, l.uncompressed = Except.ok items ∧
            ∃ s, TarItem.entry s ∈ items ∧ name = clean s.name)) :=
  @C8_io_failures_abort_wrapped
    ⟨Except.ok [⟨Except.error ("open failed")⟩, ⟨Except.ok []⟩], Except.ok ()⟩
    ⟨false, ["x"], okSink⟩ [⟨Except.error ("open failed")⟩, ⟨Except.ok []⟩]
    rfl (by decide) (by decide) rfl

end CliManager
